import Mathlib

/-!
Verification of the mdppet markdown-to-snippet extraction engine.

The development shallowly embeds the two Rust source files:
* `src/snip.rs` — the constant `MARKDOWN_RE`, the `Snippet` record with its
  constructors `Snippet::from_text` / `Snippet::from_markdown`, and the
  segmenter `get_snippet_segments` (built on `Regex::find_iter`);
* `src/main.rs` — the older pattern variant `markdown_re_text` (greedy body
  capture with an end-of-line anchor).

Strings are modelled as `List Char`.  The fixed regular expression
`MARKDOWN_RE` (flags `msx`) is embedded as a specialised matcher `matchAt`
implementing the leftmost-first (Perl-style preference) semantics of the
`regex` crate on exactly this pattern.  After discounting the `x`-flag
whitespace, the pattern is

  `# ` id:`\S+` `/` prefix:`\S+` `/` scope:`\S+` `\n+`
  desc:`(?:[^\n]+\n)+` `\n+` ``` `(?:\S+)?` `\n` body:`.+?` ```

All pieces except the header-token split are deterministic under
backtracking (every shorter/longer alternative of each greedy or lazy
piece dies immediately on the next literal), so `matchAt` computes the
header split by greedy backtracking search and everything else by direct
maximal/minimal scans.  Whitespace (`\s` of the regex crate, and Rust's
`str::trim_end`) is modelled over the ASCII whitespace characters; all
inputs considered here are ASCII.
-/

/-- A string, modelled as its list of characters. -/
abbrev Str := List Char

/-- The backtick character (written via its code point). -/
def btick : Char := Char.ofNat 96

/-- The apostrophe character (written via its code point). -/
def apo : Char := Char.ofNat 39

/-- ASCII whitespace, the model of the regex class `\s` and of the character
class used by Rust's `str::trim_end`. -/
def isWhite (c : Char) : Bool :=
  (c == ' ') || (c == '\t') || (c == '\n') || (c == '\r') ||
  (c == Char.ofNat 11) || (c == Char.ofNat 12)

/-- The model of the regex class `\S`. -/
def nonWhite (c : Char) : Bool := !(isWhite c)

/-- Is this character a line break? (`[^\n]` is `fun c => !(isNl c)`.) -/
def isNl (c : Char) : Bool := c == '\n'

/-- Does the string start with three backticks?  This models the literal
```` ``` ```` of the pattern: the regex only asks for the three-character
sequence, wherever it sits. -/
def fenceHead (l : Str) : Bool := l.take 3 == [btick, btick, btick]

/-- Greatest `k < n` with `p k = true`, the order in which a greedy
backtracking engine revisits candidate split points (longest first). -/
def findGreatestBelow (p : Nat → Bool) : Nat → Option Nat
  | 0 => none
  | n + 1 => if p n then some n else findGreatestBelow p n

/-- Split `r` as `\S+/\S+` consuming exactly `r`, with the left part greedy:
the chosen `/` is the rightmost one leaving both sides nonempty.  Returns
(prefix capture, scope capture). -/
def splitPS (r : Str) : Option (Str × Str) :=
  (findGreatestBelow (fun s => decide (1 ≤ s) && (r[s]? == some '/')) (r.length - 1)).map
    (fun s => (r.take s, r.drop (s + 1)))

/-- Split the header token run `t` as `\S+/\S+/\S+` consuming exactly `t`,
with Perl preference: the identifier is as long as possible among splits that
let the rest still divide as `prefix/scope`.  Returns (id, prefix, scope). -/
def splitHeader (t : Str) : Option (Str × Str × Str) :=
  match findGreatestBelow
      (fun k => decide (1 ≤ k) && (t[k]? == some '/') && (splitPS (t.drop (k + 1))).isSome)
      t.length with
  | none => none
  | some k => (splitPS (t.drop (k + 1))).map (fun bc => (t.take k, bc.1, bc.2))

/-- Fuel-indexed worker for `takeDescLines` (the fuel only bounds the
recursion depth; one line is consumed per step, so `l.length + 1` fuel is
always enough). -/
def tdlFuel : Nat → Str → Str × Str
  | 0, l => ([], l)
  | fuel + 1, l =>
    let line := l.takeWhile (fun x => !(isNl x))
    if line = [] then ([], l)
    else
      match l.drop line.length with
      | [] => ([], l)
      | z :: r2 =>
        if isNl z then
          let p := tdlFuel fuel r2
          (line ++ '\n' :: p.1, p.2)
        else ([], l)

/-- Consume the maximal run of nonempty newline-terminated lines, the
deterministic behaviour of the greedy `(?:[^\n]+\n)+` here.  Returns the
consumed capture (with the terminating newlines) and the rest.  A final
line without a terminating newline is not consumed. -/
def takeDescLines (l : Str) : Str × Str := tdlFuel (l.length + 1) l

/-- Least `i` with three backticks starting at position `i`. -/
def firstFenceIdx : Str → Option Nat
  | [] => none
  | c :: rest => if fenceHead (c :: rest) then some 0 else (firstFenceIdx rest).map (· + 1)

/-- Least `i ≥ 1` with three backticks starting at position `i`: the lazy
`.+?` (with the `s` flag) followed by the closing ```` ``` ```` stops the
body at the nearest fence after at least one body character. -/
def findFirstFence (l : Str) : Option Nat :=
  match l with
  | [] => none
  | _ :: rest => (firstFenceIdx rest).map (· + 1)

/-- The capture groups of one match of `MARKDOWN_RE`, together with the total
length of the matched span (header `#` through closing fence). -/
structure Caps where
  idTok : Str
  prefixTok : Str
  scopeTok : Str
  descCap : Str
  bodyCap : Str
  matchLen : Nat
deriving Repr, DecidableEq

/-- One attempted match of `MARKDOWN_RE` anchored at the start of `l`
(leftmost-first semantics of the regex crate, specialised to this pattern). -/
def matchAt (l : Str) : Option Caps :=
  match l with
  | x :: y :: r1 =>
    if x = '#' then
      if y = ' ' then
        let t := r1.takeWhile nonWhite
        match splitHeader t with
        | none => none
        | some (a, b, cs) =>
          let r2 := r1.drop t.length
          let n1 := (r2.takeWhile isNl).length
          if n1 = 0 then none
          else
            let r3 := r2.drop n1
            let dd := takeDescLines r3
            if dd.1 = [] then none
            else
              let n2 := (dd.2.takeWhile isNl).length
              if n2 = 0 then none
              else
                let r5 := dd.2.drop n2
                if fenceHead r5 then
                  let r6 := r5.drop 3
                  let lang := r6.takeWhile nonWhite
                  match r6.drop lang.length with
                  | z :: r8 =>
                    if z = '\n' then
                      match findFirstFence r8 with
                      | none => none
                      | some i =>
                        some ⟨a, b, cs, dd.1, r8.take i,
                          2 + t.length + n1 + dd.1.length + n2 + 3 + lang.length + 1 + i + 3⟩
                    else none
                  | [] => none
                else none
      else none
    else none
  | _ => none

/-- `Regex::captures` / `Regex::find`: try every start position from left to
right, returning the offset of the first position where a match begins,
together with its captures. -/
def findOff : Str → Option (Nat × Caps)
  | [] => none
  | c :: rest =>
    match matchAt (c :: rest) with
    | some cp => some (0, cp)
    | none => (findOff rest).map (fun p => (p.1 + 1, p.2))

/-- `Regex::find_iter`: repeatedly find the leftmost match, resuming after
the end of the previous match.  Positions are absolute in the original
document; the fuel argument (always instantiated with enough fuel) bounds
the recursion. -/
def findIterInfo : Nat → Str → Nat → List (Nat × Caps)
  | 0, _, _ => []
  | fuel + 1, l, base =>
    match findOff l with
    | none => []
    | some (i, c) => (base + i, c) :: findIterInfo fuel (l.drop (i + c.matchLen)) (base + i + c.matchLen)

/-- `get_snippet_segments` (snip.rs:169-176): the ordered list of matched raw
substrings of the document. -/
def get_snippet_segments (l : Str) : List Str :=
  (findIterInfo (l.length + 1) l 0).map (fun m => (l.drop m.1).take m.2.matchLen)

/-- `SnippetBody` (snip.rs:61-67).  The Rust field `prefix` is called
`prefixTok` here (and `scope` is `scopeTok`, matching `Caps`). -/
structure SnippetBody where
  prefixTok : Str
  scopeTok : Str
  body : List Str
  description : List Str
deriving Repr, DecidableEq

/-- `Snippet` (snip.rs:55-59). -/
structure Snippet where
  identifier : Str
  body : SnippetBody
deriving Repr, DecidableEq

/-- Rust `str::trim_end`: remove trailing whitespace characters. -/
def trimEnd (l : Str) : Str := (l.reverse.dropWhile isWhite).reverse

/-- Rust `str::split("\n")` collected into a vector: split at every newline;
the empty string yields one empty piece. -/
def splitNl : Str → List Str
  | [] => [[]]
  | c :: rest =>
    if isNl c then [] :: splitNl rest
    else
      match splitNl rest with
      | [] => [[c]]
      | s :: ss => (c :: s) :: ss

/-- `Snippet::from_text` (snip.rs:97-125): trim the body and description
captures, split each on newlines, and assemble the record. -/
def Snippet.from_text (identifier prefixTok scopeTok bodyC descC : Str) : Snippet :=
  ⟨identifier, ⟨prefixTok, scopeTok, splitNl (trimEnd bodyC), splitNl (trimEnd descC)⟩⟩

/-- `Snippet::from_markdown` (snip.rs:127-136): run the regex on the text and
build the record from the first match's captures.  The Rust code unwraps the
`captures` option and panics when there is no match; the panic is modelled as
`none`. -/
def Snippet.from_markdown (text : Str) : Option Snippet :=
  (findOff text).map (fun p =>
    Snippet.from_text p.2.idTok p.2.prefixTok p.2.scopeTok p.2.bodyCap p.2.descCap)

/-- `n` consecutive line breaks. -/
def nlRep (n : Nat) : Str := List.replicate n '\n'

/-- Join description lines, each with its terminating line break. -/
def joinNl (lns : List Str) : Str := (lns.map (fun ln => ln ++ ['\n'])).join

/-- A legal description line: nonempty, and free of line breaks. -/
def lineOk (ln : Str) : Prop := ln ≠ [] ∧ ∀ x ∈ ln, isNl x = false

/-- The declarative shape of one block of the grammar, existentially split
into header tokens, header/description separation, description lines,
description/fence separation, fence with optional language tag, and body
ended by a closing fence.  `matchAt` succeeds exactly on texts of this
shape (no maximality side conditions are needed: whenever a decomposition
exists, the preferred one found by the matcher also exists). -/
def BlockEx (l : Str) : Prop :=
  ∃ (a b cs : Str) (n1 : Nat) (lns : List Str) (n2 : Nat) (lang body rest : Str),
    l = '#' :: ' ' :: ((a ++ '/' :: (b ++ '/' :: cs)) ++ (nlRep n1 ++ (joinNl lns ++ (nlRep n2 ++
        (btick :: btick :: btick :: (lang ++ '\n' :: (body ++ btick :: btick :: btick :: rest))))))) ∧
    a ≠ [] ∧ b ≠ [] ∧ cs ≠ [] ∧
    (∀ x ∈ a ++ '/' :: (b ++ '/' :: cs), nonWhite x = true) ∧
    1 ≤ n1 ∧ lns ≠ [] ∧ (∀ ln ∈ lns, lineOk ln) ∧ 1 ≤ n2 ∧
    (∀ x ∈ lang, nonWhite x = true) ∧ body ≠ []

/-- The blank-line separation shape of a matched block: header line, at
least one line break, description lines, at least one extra line break
(a blank line), then the opening fence. -/
def SepShape (l : Str) : Prop :=
  ∃ (toks : Str) (n1 : Nat) (lns : List Str) (n2 : Nat) (tail : Str),
    l = '#' :: ' ' :: (toks ++ (nlRep n1 ++ (joinNl lns ++ (nlRep n2 ++
      btick :: btick :: btick :: tail)))) ∧
    1 ≤ n1 ∧ 1 ≤ n2 ∧ lns ≠ [] ∧ (∀ ln ∈ lns, lineOk ln)

/-- What the Record Builder's trimming does to one captured region before
splitting: the output is nonempty; an all-whitespace region yields exactly
one empty entry; a trailing empty entry occurs only for an all-whitespace
region; and the capture splits as a retained region followed by a discarded
whitespace suffix, where the retained region ends in a *non-whitespace*
character (or is empty) — so the trim is maximal: trailing blank lines and
trailing whitespace inside the final non-blank line are all removed — and
the output is exactly the newline-split of that retained region. -/
def TrimSpec (capture : Str) (out : List Str) : Prop :=
  out ≠ [] ∧
  ((∀ x ∈ capture, isWhite x = true) → out = [[]]) ∧
  (out.getLast? = some [] → ∀ x ∈ capture, isWhite x = true) ∧
  (∃ kept w, capture = kept ++ w ∧ (∀ x ∈ w, isWhite x = true) ∧
    (kept.getLast? = none ∨ ∃ y, kept.getLast? = some y ∧ isWhite y = false) ∧
    out = splitNl kept)

/-! ### Concrete documents used by the test-style results -/

/-- The raw block of the spec round-trip document (§8): its matched span. -/
def blkC1 : Str :=
  "# hello/hello/rust\n\nRust".data ++ [apo] ++
  "s HelloWorld code\n\n```rust\nprintln!(\"Hello World!\");\n```".data

/-- The spec round-trip document (§8), with a trailing newline. -/
def docC1 : Str := blkC1 ++ "\n".data

/-- The expected round-trip record. -/
def snipC1 : Snippet :=
  ⟨"hello".data, ⟨"hello".data, "rust".data,
    ["println!(\"Hello World!\");".data],
    ["Rust".data ++ [apo] ++ "s HelloWorld code".data]⟩⟩

/-- First block of the three-block document (identifier `a`). -/
def blkA : Str := "# a/b/c\n\ndesp\n\n```rust\nprintln!(\"Hello\");\n```".data

/-- The captures of `blkA` (matched at its start). -/
def capsA : Caps :=
  ⟨"a".data, "b".data, "c".data, "desp\n".data, "println!(\"Hello\");\n".data, 45⟩

/-- Second block of the three-block document (identifier `e`). -/
def blkB : Str := "# e/f/g\n\ndesp2\ndesp2\n\n```\nabc\n```".data

/-- Third block of the three-block document (identifier `abc`). -/
def blkC : Str :=
  "# abc/123/python,lua\n\ndesp3\ndesp4\n\n```python\nprint(\"Hello1\")\nprint(\"Hello2\")\n```".data

/-- A document with three consecutive blocks (identifiers `a`, `e`, `abc`). -/
def docC2 : Str := blkA ++ "\n\n".data ++ blkB ++ "\n\n".data ++ blkC ++ "\n".data

/-- A short document with no block at all. -/
def docNoMatch : Str := "no snippet here\n".data

/-- A document whose only header sits mid-line (after an `x`). -/
def docC6x : Str := "x# a/b/c\n\nd\n\n```t\ny\n```".data

/-- A document with no blank line between the header and the description. -/
def docC7x : Str := "# a/b/c\ndesc\n\n```t\ny\n```".data

/-- A document whose code region has a four-backtick line before a
three-backtick line. -/
def docC3x : Str := "# a/b/c\n\nd\n\n```t\nzz\n````\nmore\n```".data

/-- A document whose single description line ends in a space. -/
def docC4x : Str := "# a/b/c\n\nab \n\n```\nx\n```".data

/-- A document with junk before and after its single block. -/
def docC10 : Str := "junk\n# a/b/c\n\nd\n\n```\nq\n```\nmore junk".data

/-- The captures of the block inside `docC10` (matched at offset 5). -/
def capsC10 : Caps := ⟨"a".data, "b".data, "c".data, "d\n".data, "q\n".data, 21⟩

/-! ### Basic list facts -/

theorem takeWhile_all {p : Char → Bool} : ∀ {l : Str} {x : Char}, x ∈ l.takeWhile p → p x = true := by
  intro l x h
  exact List.mem_takeWhile_imp h

theorem dropWhile_eq_drop_len (p : Char → Bool) (l : Str) :
    l.dropWhile p = l.drop (l.takeWhile p).length := by
  induction l with
  | nil => rfl
  | cons c rest ih =>
    by_cases hc : p c
    · simp [List.takeWhile_cons_of_pos hc, List.dropWhile_cons_of_pos hc, ih]
    · simp [List.takeWhile_cons_of_neg hc, List.dropWhile_cons_of_neg hc]

theorem takeWhile_split (p : Char → Bool) (l : Str) :
    l = l.takeWhile p ++ l.drop (l.takeWhile p).length := by
  have h1 : l.takeWhile p ++ l.dropWhile p = l := List.takeWhile_append_dropWhile p l
  rw [← dropWhile_eq_drop_len, h1]

theorem takeWhile_all_append {p : Char → Bool} :
    ∀ {m r : Str}, (∀ x ∈ m, p x = true) → (∀ z, r.head? = some z → p z = false) →
      (m ++ r).takeWhile p = m := by
  intro m
  induction m with
  | nil =>
    intro r _ hr
    cases r with
    | nil => rfl
    | cons z rest =>
      have := hr z rfl
      simp [List.takeWhile_cons, this]
  | cons c rest ih =>
    intro r hm hr
    have hc : p c = true := hm c (by simp)
    simp only [List.cons_append, List.takeWhile_cons_of_pos hc]
    rw [ih (fun x hx => hm x (by simp [hx])) hr]

theorem replicate_of_all_eq {c : Char} : ∀ {m : Str}, (∀ x ∈ m, x = c) → m = List.replicate m.length c := by
  intro m h
  exact List.eq_replicate_iff.mpr ⟨rfl, h⟩

theorem head?_append_of_ne_nil {m r : Str} (h : m ≠ []) : (m ++ r).head? = m.head? := by
  cases m with
  | nil => exact absurd rfl h
  | cons c rest => rfl

/-! ### findGreatestBelow -/

theorem fgb_sound {p : Nat → Bool} : ∀ {n k : Nat}, findGreatestBelow p n = some k →
    k < n ∧ p k = true := by
  intro n
  induction n with
  | zero => intro k h; simp [findGreatestBelow] at h
  | succ m ih =>
    intro k h
    simp only [findGreatestBelow] at h
    by_cases hp : p m
    · simp [hp] at h
      exact ⟨by omega, by rw [← h]; exact hp⟩
    · simp [hp] at h
      obtain ⟨h1, h2⟩ := ih h
      exact ⟨by omega, h2⟩

theorem fgb_none {p : Nat → Bool} : ∀ {n : Nat}, findGreatestBelow p n = none →
    ∀ j < n, p j = false := by
  intro n
  induction n with
  | zero => intro _ j hj; omega
  | succ m ih =>
    intro h j hj
    simp only [findGreatestBelow] at h
    by_cases hp : p m
    · simp [hp] at h
    · simp [hp] at h
      rcases Nat.lt_succ_iff_lt_or_eq.mp hj with hlt | rfl
      · exact ih h j hlt
      · exact Bool.eq_false_iff.mpr hp

theorem fgb_isSome {p : Nat → Bool} {n j : Nat} (hj : j < n) (hp : p j = true) :
    (findGreatestBelow p n).isSome := by
  cases h : findGreatestBelow p n with
  | some k => rfl
  | none =>
    have := fgb_none h j hj
    rw [hp] at this
    exact absurd this (by simp)

/-! ### splitPS and splitHeader -/

theorem splitPS_sound {r b c : Str} (h : splitPS r = some (b, c)) :
    b ≠ [] ∧ c ≠ [] ∧ r = b ++ '/' :: c := by
  unfold splitPS at h
  cases hg : findGreatestBelow (fun s => decide (1 ≤ s) && (r[s]? == some '/')) (r.length - 1) with
  | none => rw [hg] at h; simp at h
  | some s =>
    rw [hg] at h
    simp only [Option.map_some', Option.some.injEq, Prod.mk.injEq] at h
    obtain ⟨hb, hc⟩ := h
    obtain ⟨hlt, hp⟩ := fgb_sound hg
    have hs1 : 1 ≤ s := by
      have := (Bool.and_eq_true _ _).mp hp |>.1
      exact of_decide_eq_true this
    have hslash : r[s]? = some '/' := by
      have := (Bool.and_eq_true _ _).mp hp |>.2
      exact beq_iff_eq.mp this
    have hslen : s < r.length := by
      have := List.getElem?_eq_some.mp hslash
      exact this.1
    refine ⟨?_, ?_, ?_⟩
    · rw [← hb]
      intro hnil
      have : (r.take s).length = 0 := by rw [hnil]; rfl
      rw [List.length_take] at this
      omega
    · rw [← hc]
      intro hnil
      have : (r.drop (s + 1)).length = 0 := by rw [hnil]; rfl
      rw [List.length_drop] at this
      omega
    · rw [← hb, ← hc]
      have hdrop : r.drop s = '/' :: r.drop (s + 1) := by
        rw [List.drop_eq_getElem_cons hslen]
        congr 1
        have := List.getElem?_eq_some.mp hslash
        exact this.2
      calc r = r.take s ++ r.drop s := (List.take_append_drop s r).symm
        _ = r.take s ++ '/' :: r.drop (s + 1) := by rw [hdrop]

theorem getElem?_append_len {a r : Str} {x : Char} : (a ++ x :: r)[a.length]? = some x := by
  rw [List.getElem?_append_right (Nat.le_refl _)]
  simp

theorem splitPS_complete {b c : Str} (hb : b ≠ []) (hc : c ≠ []) :
    (splitPS (b ++ '/' :: c)).isSome := by
  unfold splitPS
  have hp : (fun s => decide (1 ≤ s) && ((b ++ '/' :: c)[s]? == some '/')) b.length = true := by
    simp only [getElem?_append_len, beq_self_eq_true, Bool.and_true]
    simp [Nat.one_le_iff_ne_zero, List.length_eq_zero, hb]
  have hlt : b.length < (b ++ '/' :: c).length - 1 := by
    have : c.length ≠ 0 := fun h => hc (List.length_eq_zero.mp h)
    simp only [List.length_append, List.length_cons]
    omega
  have := fgb_isSome (p := fun s => decide (1 ≤ s) && ((b ++ '/' :: c)[s]? == some '/')) hlt hp
  cases hg : findGreatestBelow (fun s => decide (1 ≤ s) && ((b ++ '/' :: c)[s]? == some '/'))
      ((b ++ '/' :: c).length - 1) with
  | none => rw [hg] at this; simp at this
  | some s => rfl

theorem splitHeader_sound {t a b c : Str} (h : splitHeader t = some (a, b, c)) :
    a ≠ [] ∧ b ≠ [] ∧ c ≠ [] ∧ t = a ++ '/' :: (b ++ '/' :: c) := by
  unfold splitHeader at h
  cases hg : findGreatestBelow
      (fun k => decide (1 ≤ k) && (t[k]? == some '/') && (splitPS (t.drop (k + 1))).isSome)
      t.length with
  | none => rw [hg] at h; simp at h
  | some k =>
    rw [hg] at h
    have h : (splitPS (t.drop (k + 1))).map (fun bc => (t.take k, bc.1, bc.2)) = some (a, b, c) := h
    obtain ⟨hlt, hp⟩ := fgb_sound hg
    simp only [Bool.and_eq_true] at hp
    obtain ⟨⟨hk1, hkslash⟩, hps⟩ := hp
    have hk1 : 1 ≤ k := of_decide_eq_true hk1
    have hkslash : t[k]? = some '/' := beq_iff_eq.mp hkslash
    cases hsp : splitPS (t.drop (k + 1)) with
    | none => rw [hsp] at hps; simp at hps
    | some bc =>
      rw [hsp] at h
      simp only [Option.map_some', Option.some.injEq, Prod.mk.injEq] at h
      obtain ⟨ha, hb, hc⟩ := h
      obtain ⟨hbne, hcne, heq⟩ := splitPS_sound hsp
      refine ⟨?_, by rw [← hb]; exact hbne, by rw [← hc]; exact hcne, ?_⟩
      · rw [← ha]
        intro hnil
        have : (t.take k).length = 0 := by rw [hnil]; rfl
        rw [List.length_take] at this
        omega
      · have hklen : k < t.length := (List.getElem?_eq_some.mp hkslash).1
        have hdrop : t.drop k = '/' :: t.drop (k + 1) := by
          rw [List.drop_eq_getElem_cons hklen]
          congr 1
          exact (List.getElem?_eq_some.mp hkslash).2
        calc t = t.take k ++ t.drop k := (List.take_append_drop k t).symm
          _ = t.take k ++ '/' :: t.drop (k + 1) := by rw [hdrop]
          _ = a ++ '/' :: (b ++ '/' :: c) := by rw [ha, heq, hb, hc]

theorem splitHeader_complete {a b c : Str} (ha : a ≠ []) (hb : b ≠ []) (hc : c ≠ []) :
    (splitHeader (a ++ '/' :: (b ++ '/' :: c))).isSome := by
  unfold splitHeader
  have hdropa : (a ++ '/' :: (b ++ '/' :: c)).drop (a.length + 1) = b ++ '/' :: c := by
    have : a ++ '/' :: (b ++ '/' :: c) = (a ++ ['/']) ++ (b ++ '/' :: c) := by simp
    rw [this]
    have hlen : (a ++ ['/']).length = a.length + 1 := by simp
    rw [← hlen, List.drop_left]
  have hp : (fun k => decide (1 ≤ k) && ((a ++ '/' :: (b ++ '/' :: c))[k]? == some '/') &&
      (splitPS ((a ++ '/' :: (b ++ '/' :: c)).drop (k + 1))).isSome) a.length = true := by
    simp only [Bool.and_eq_true]
    refine ⟨⟨?_, ?_⟩, ?_⟩
    · simp [Nat.one_le_iff_ne_zero, List.length_eq_zero, ha]
    · rw [getElem?_append_len]
      simp
    · rw [hdropa]
      exact splitPS_complete hb hc
  have hlt : a.length < (a ++ '/' :: (b ++ '/' :: c)).length := by
    simp only [List.length_append, List.length_cons]
    omega
  have hs := fgb_isSome
    (p := fun k => decide (1 ≤ k) && ((a ++ '/' :: (b ++ '/' :: c))[k]? == some '/') &&
      (splitPS ((a ++ '/' :: (b ++ '/' :: c)).drop (k + 1))).isSome) hlt hp
  cases hg : findGreatestBelow
      (fun k => decide (1 ≤ k) && ((a ++ '/' :: (b ++ '/' :: c))[k]? == some '/') &&
        (splitPS ((a ++ '/' :: (b ++ '/' :: c)).drop (k + 1))).isSome)
      (a ++ '/' :: (b ++ '/' :: c)).length with
  | none => rw [hg] at hs; simp at hs
  | some k =>
    obtain ⟨_, hpk⟩ := fgb_sound hg
    simp only [Bool.and_eq_true] at hpk
    obtain ⟨_, hps⟩ := hpk
    show ((splitPS ((a ++ '/' :: (b ++ '/' :: c)).drop (k + 1))).map
      (fun bc => ((a ++ '/' :: (b ++ '/' :: c)).take k, bc.1, bc.2))).isSome = true
    cases hsp : splitPS ((a ++ '/' :: (b ++ '/' :: c)).drop (k + 1)) with
    | none => rw [hsp] at hps; simp at hps
    | some bc => rfl

/-! ### takeDescLines -/

theorem joinNl_cons (ln : Str) (lns : List Str) :
    joinNl (ln :: lns) = ln ++ '\n' :: joinNl lns := by
  simp [joinNl]

theorem tdlFuel_irrel : ∀ (f : Nat) (l : Str), l.length < f →
    tdlFuel f l = tdlFuel (l.length + 1) l := by
  intro f
  induction f using Nat.strong_induction_on with
  | _ f ih =>
    intro l hf
    match f, hf with
    | f1 + 1, hf =>
      show tdlFuel (f1 + 1) l = tdlFuel (l.length + 1) l
      simp only [tdlFuel]
      by_cases h1 : l.takeWhile (fun x => !(isNl x)) = []
      · rw [if_pos h1, if_pos h1]
      · rw [if_neg h1, if_neg h1]
        cases h2 : l.drop (l.takeWhile (fun x => !(isNl x))).length with
        | nil => rfl
        | cons z r2 =>
          simp only []
          by_cases hz : isNl z
          · rw [if_pos hz, if_pos hz]
            have hlenle : (l.takeWhile (fun x => !(isNl x))).length ≤ l.length := by
              conv_rhs => rw [takeWhile_split (fun x => !(isNl x)) l]
              simp
            have hlendrop : (l.drop (l.takeWhile (fun x => !(isNl x))).length).length =
                l.length - (l.takeWhile (fun x => !(isNl x))).length := List.length_drop _ _
            rw [h2] at hlendrop
            simp only [List.length_cons] at hlendrop
            have h1len : (l.takeWhile (fun x => !(isNl x))).length ≠ 0 := by
              intro hc
              exact h1 (List.length_eq_zero.mp hc)
            have hr2f1 : r2.length < f1 := by omega
            have hr2l : r2.length < l.length := by omega
            rw [ih f1 (by omega) r2 hr2f1, ih l.length (by omega) r2 hr2l]
          · rw [if_neg hz, if_neg hz]

theorem tdl_unfold (l : Str) :
    takeDescLines l =
      (let line := l.takeWhile (fun x => !(isNl x))
       if line = [] then ([], l)
       else
         match l.drop line.length with
         | [] => ([], l)
         | z :: r2 =>
           if isNl z then (line ++ '\n' :: (takeDescLines r2).1, (takeDescLines r2).2)
           else ([], l)) := by
  show tdlFuel (l.length + 1) l = _
  simp only [tdlFuel]
  by_cases h1 : l.takeWhile (fun x => !(isNl x)) = []
  · rw [if_pos h1, if_pos h1]
  · rw [if_neg h1, if_neg h1]
    cases h2 : l.drop (l.takeWhile (fun x => !(isNl x))).length with
    | nil => rfl
    | cons z r2 =>
      simp only []
      by_cases hz : isNl z
      · rw [if_pos hz, if_pos hz]
        have hlenle : (l.takeWhile (fun x => !(isNl x))).length ≤ l.length := by
          conv_rhs => rw [takeWhile_split (fun x => !(isNl x)) l]
          simp
        have hlendrop : (l.drop (l.takeWhile (fun x => !(isNl x))).length).length =
            l.length - (l.takeWhile (fun x => !(isNl x))).length := List.length_drop _ _
        rw [h2] at hlendrop
        simp only [List.length_cons] at hlendrop
        have h1len : (l.takeWhile (fun x => !(isNl x))).length ≠ 0 := by
          intro hc
          exact h1 (List.length_eq_zero.mp hc)
        have : tdlFuel l.length r2 = takeDescLines r2 :=
          tdlFuel_irrel l.length r2 (by omega)
        rw [this]
      · rw [if_neg hz, if_neg hz]

theorem tdl_nil_line (l : Str) (h : l.takeWhile (fun x => !(isNl x)) = []) :
    takeDescLines l = ([], l) := by
  rw [tdl_unfold]
  simp [h]

theorem tdl_no_term (l : Str) (h1 : l.takeWhile (fun x => !(isNl x)) ≠ [])
    (h2 : l.drop (l.takeWhile (fun x => !(isNl x))).length = []) :
    takeDescLines l = ([], l) := by
  rw [tdl_unfold]
  simp only [h1, if_false]
  split
  · rfl
  next z r2 heq => rw [h2] at heq; cases heq

theorem tdl_step (l : Str) (h1 : l.takeWhile (fun x => !(isNl x)) ≠ [])
    {r2 : Str} (h2 : l.drop (l.takeWhile (fun x => !(isNl x))).length = '\n' :: r2) :
    takeDescLines l = (l.takeWhile (fun x => !(isNl x)) ++ '\n' :: (takeDescLines r2).1,
      (takeDescLines r2).2) := by
  rw [tdl_unfold]
  simp only [h1, if_false]
  split
  next heq => rw [h2] at heq; cases heq
  next z r2x heq =>
    rw [h2] at heq
    injection heq with hz hr
    subst hr
    rw [← hz]
    simp [isNl]

theorem tdl_not_nl (l : Str) (h1 : l.takeWhile (fun x => !(isNl x)) ≠ [])
    {z : Char} {r2 : Str} (h2 : l.drop (l.takeWhile (fun x => !(isNl x))).length = z :: r2)
    (hz : isNl z = false) :
    takeDescLines l = ([], l) := by
  rw [tdl_unfold]
  simp only [h1, if_false]
  split
  next => rfl
  next w r2x heq =>
    rw [h2] at heq
    injection heq with hw hr
    rw [← hw]
    simp [hz]

theorem tdl_elim (l : Str) : ∃ lns : List Str,
    (takeDescLines l).1 = joinNl lns ∧ (∀ ln ∈ lns, lineOk ln) ∧
    l = joinNl lns ++ (takeDescLines l).2 := by
  generalize hn : l.length = n
  induction n using Nat.strong_induction_on generalizing l with
  | _ n ih =>
    by_cases h1 : l.takeWhile (fun x => !(isNl x)) = []
    · exact ⟨[], by rw [tdl_nil_line l h1]; simp [joinNl]⟩
    · cases h2 : l.drop (l.takeWhile (fun x => !(isNl x))).length with
      | nil => exact ⟨[], by rw [tdl_no_term l h1 h2]; simp [joinNl]⟩
      | cons z r2 =>
        by_cases hz : isNl z
        · have hz2 : z = '\n' := by
            have := hz
            unfold isNl at this
            exact beq_iff_eq.mp this
          subst hz2
          have hlenle : (l.takeWhile (fun x => !(isNl x))).length ≤ l.length := by
            conv_rhs => rw [takeWhile_split (fun x => !(isNl x)) l]
            simp
          have hlendrop : (l.drop (l.takeWhile (fun x => !(isNl x))).length).length =
              l.length - (l.takeWhile (fun x => !(isNl x))).length := List.length_drop _ _
          rw [h2] at hlendrop
          have h1len : (l.takeWhile (fun x => !(isNl x))).length ≠ 0 := by
            intro hc
            exact h1 (List.length_eq_zero.mp hc)
          have hr2 : r2.length < n := by
            simp only [List.length_cons] at hlendrop
            omega
          obtain ⟨lns, hA, hB, hC⟩ := ih r2.length hr2 r2 rfl
          refine ⟨l.takeWhile (fun x => !(isNl x)) :: lns, ?_, ?_, ?_⟩
          · rw [tdl_step l h1 h2, joinNl_cons, hA]
          · intro ln hln
            rcases List.mem_cons.mp hln with hl | hl
            · subst hl
              refine ⟨h1, ?_⟩
              intro x hx
              have := takeWhile_all hx
              simpa using this
            · exact hB ln hl
          · rw [tdl_step l h1 h2, joinNl_cons]
            have hsplit := takeWhile_split (fun x => !(isNl x)) l
            calc l = l.takeWhile (fun x => !(isNl x)) ++
                l.drop (l.takeWhile (fun x => !(isNl x))).length := hsplit
              _ = l.takeWhile (fun x => !(isNl x)) ++ '\n' :: r2 := by rw [h2]
              _ = l.takeWhile (fun x => !(isNl x)) ++ '\n' ::
                  (joinNl lns ++ (takeDescLines r2).2) := by rw [← hC]
              _ = (l.takeWhile (fun x => !(isNl x)) ++ '\n' :: joinNl lns) ++
                  (takeDescLines r2).2 := by simp
        · have hz2 : isNl z = false := Bool.eq_false_iff.mpr hz
          exact ⟨[], by rw [tdl_not_nl l h1 h2 hz2]; simp [joinNl]⟩

theorem tdl_complete : ∀ (lns : List Str) (r : Str), (∀ ln ∈ lns, lineOk ln) →
    r.head? = some '\n' → takeDescLines (joinNl lns ++ r) = (joinNl lns, r) := by
  intro lns
  induction lns with
  | nil =>
    intro r _ hr
    cases r with
    | nil => cases hr
    | cons z rest =>
      have hz : z = '\n' := Option.some.inj hr
      subst hz
      have : joinNl [] ++ '\n' :: rest = '\n' :: rest := by simp [joinNl]
      rw [this]
      apply tdl_nil_line
      simp [isNl]
  | cons ln lns ih =>
    intro r hok hr
    have hln := hok ln (List.mem_cons_self _ _)
    obtain ⟨hlnne, hlnnl⟩ := hln
    have hshape : joinNl (ln :: lns) ++ r = ln ++ ('\n' :: (joinNl lns ++ r)) := by
      rw [joinNl_cons]
      simp
    rw [hshape]
    have htake : (ln ++ ('\n' :: (joinNl lns ++ r))).takeWhile (fun x => !(isNl x)) = ln := by
      apply takeWhile_all_append
      · intro x hx
        simp [hlnnl x hx]
      · intro z hz
        have hz2 : z = '\n' := (Option.some.inj hz).symm
        subst hz2
        simp [isNl]
    have hdrop : (ln ++ ('\n' :: (joinNl lns ++ r))).drop
        ((ln ++ ('\n' :: (joinNl lns ++ r))).takeWhile (fun x => !(isNl x))).length =
        '\n' :: (joinNl lns ++ r) := by
      rw [htake, List.drop_left]
    rw [tdl_step _ (by rw [htake]; exact hlnne) hdrop, htake,
      ih r (fun x hx => hok x (List.mem_cons_of_mem _ hx)) hr]
    rw [joinNl_cons]

/-! ### Fence search -/

theorem fenceHead_nil : fenceHead [] = false := by decide

theorem ffi_sound : ∀ {l : Str} {i : Nat}, firstFenceIdx l = some i →
    fenceHead (l.drop i) = true ∧ ∀ j < i, fenceHead (l.drop j) = false := by
  intro l
  induction l with
  | nil => intro i h; cases h
  | cons c rest ih =>
    intro i h
    simp only [firstFenceIdx] at h
    by_cases hf : fenceHead (c :: rest)
    · rw [if_pos hf] at h
      injection h with h
      subst h
      exact ⟨hf, by omega⟩
    · rw [if_neg hf] at h
      cases hfi : firstFenceIdx rest with
      | none => rw [hfi] at h; cases h
      | some i2 =>
        rw [hfi] at h
        simp only [Option.map_some', Option.some.injEq] at h
        subst h
        obtain ⟨hA, hB⟩ := ih hfi
        refine ⟨hA, ?_⟩
        intro j hj
        cases j with
        | zero => exact Bool.eq_false_iff.mpr hf
        | succ j2 => exact hB j2 (by omega)

theorem ffi_exists : ∀ {l : Str} {j : Nat}, fenceHead (l.drop j) = true →
    (firstFenceIdx l).isSome := by
  intro l
  induction l with
  | nil =>
    intro j h
    rw [List.drop_nil] at h
    rw [fenceHead_nil] at h
    cases h
  | cons c rest ih =>
    intro j h
    simp only [firstFenceIdx]
    by_cases hf : fenceHead (c :: rest)
    · rw [if_pos hf]; rfl
    · rw [if_neg hf]
      cases j with
      | zero => exact absurd h hf
      | succ j2 =>
        rw [List.drop_succ_cons] at h
        have := ih h
        cases hfi : firstFenceIdx rest with
        | none => rw [hfi] at this; cases this
        | some i2 => rfl

theorem fff_sound {l : Str} {i : Nat} (h : findFirstFence l = some i) :
    1 ≤ i ∧ fenceHead (l.drop i) = true ∧ ∀ j, 1 ≤ j → j < i → fenceHead (l.drop j) = false := by
  cases l with
  | nil => cases h
  | cons c rest =>
    simp only [findFirstFence] at h
    cases hfi : firstFenceIdx rest with
    | none => rw [hfi] at h; cases h
    | some i2 =>
      rw [hfi] at h
      simp only [Option.map_some', Option.some.injEq] at h
      subst h
      obtain ⟨hA, hB⟩ := ffi_sound hfi
      refine ⟨by omega, ?_, ?_⟩
      · rw [List.drop_succ_cons]
        exact hA
      · intro j hj1 hji
        cases j with
        | zero => omega
        | succ j2 =>
          rw [List.drop_succ_cons]
          exact hB j2 (by omega)

theorem fff_exists {l : Str} {j : Nat} (hj : 1 ≤ j) (h : fenceHead (l.drop j) = true) :
    (findFirstFence l).isSome := by
  cases l with
  | nil =>
    rw [List.drop_nil, fenceHead_nil] at h
    cases h
  | cons c rest =>
    simp only [findFirstFence]
    cases j with
    | zero => omega
    | succ j2 =>
      rw [List.drop_succ_cons] at h
      have := ffi_exists h
      cases hfi : firstFenceIdx rest with
      | none => rw [hfi] at this; cases this
      | some i2 => rfl

/-! ### Newline runs and token runs -/

theorem nl_run_decomp (l : Str) :
    l = nlRep (l.takeWhile isNl).length ++ l.drop (l.takeWhile isNl).length := by
  have hrep : l.takeWhile isNl = nlRep (l.takeWhile isNl).length := by
    apply replicate_of_all_eq
    intro x hx
    have := takeWhile_all hx
    unfold isNl at this
    exact beq_iff_eq.mp this
  conv_lhs => rw [takeWhile_split isNl l]
  rw [← hrep]

theorem nl_run_complete {n : Nat} {r : Str}
    (hr : ∀ z, r.head? = some z → isNl z = false) :
    (nlRep n ++ r).takeWhile isNl = nlRep n := by
  apply takeWhile_all_append
  · intro x hx
    have := List.eq_of_mem_replicate hx
    subst this
    rfl
  · exact hr

theorem nlRep_length (n : Nat) : (nlRep n).length = n := List.length_replicate n _

/-! ### Inversion and completeness of the matcher -/

theorem matchAt_elim {l : Str} {c : Caps} (h : matchAt l = some c) :
    ∃ (n1 : Nat) (lns : List Str) (n2 : Nat) (lang : Str) (i : Nat) (r8 : Str),
      l = '#' :: ' ' :: ((c.idTok ++ '/' :: (c.prefixTok ++ '/' :: c.scopeTok)) ++
        (nlRep n1 ++ (joinNl lns ++ (nlRep n2 ++
          (btick :: btick :: btick :: (lang ++ '\n' :: r8)))))) ∧
      c.descCap = joinNl lns ∧
      c.bodyCap = r8.take i ∧
      findFirstFence r8 = some i ∧
      1 ≤ n1 ∧ 1 ≤ n2 ∧ lns ≠ [] ∧ (∀ ln ∈ lns, lineOk ln) ∧
      c.idTok ≠ [] ∧ c.prefixTok ≠ [] ∧ c.scopeTok ≠ [] ∧
      (∀ x ∈ c.idTok ++ '/' :: (c.prefixTok ++ '/' :: c.scopeTok), nonWhite x = true) ∧
      (∀ x ∈ lang, nonWhite x = true) ∧
      c.matchLen = 2 + (c.idTok ++ '/' :: (c.prefixTok ++ '/' :: c.scopeTok)).length + n1 +
        (joinNl lns).length + n2 + 3 + lang.length + 1 + i + 3 := by
  cases l with
  | nil => cases h
  | cons x l1 =>
    cases l1 with
    | nil => cases h
    | cons y r1 =>
      simp only [matchAt] at h
      repeat' split at h
      all_goals try cases h
      rename_i hx hy scr1 a b cs hsh hn1 hdd hn2 hfence scr2 z r8 hr7 hz scr3 i hff
      subst hx
      subst hy
      subst hz
      set t := r1.takeWhile nonWhite with ht
      set r2 := r1.drop t.length with hr2
      set n1 := (r2.takeWhile isNl).length with hn1e
      set r3 := r2.drop n1 with hr3
      set dd := takeDescLines r3 with hdde
      set n2 := (dd.2.takeWhile isNl).length with hn2e
      set r5 := dd.2.drop n2 with hr5
      set r6 := r5.drop 3 with hr6
      set lang := r6.takeWhile nonWhite with hlang
      obtain ⟨hane, hbne, hcne, hteq⟩ := splitHeader_sound hsh
      obtain ⟨lns, hlnsA, hlnsB, hlnsC⟩ := tdl_elim r3
      have hlnsne : lns ≠ [] := by
        intro hc
        apply hdd
        rw [hlnsA, hc]
        simp [joinNl]
      refine ⟨n1, lns, n2, lang, i, r8, ?_, ?_, ?_, hff, ?_, ?_, hlnsne, hlnsB, ?_, ?_, ?_, ?_, ?_, ?_⟩
      · show ('#' :: ' ' :: r1 : Str) = '#' :: ' ' :: ((a ++ '/' :: (b ++ '/' :: cs)) ++
          (nlRep n1 ++ (joinNl lns ++ (nlRep n2 ++
            (btick :: btick :: btick :: (lang ++ '\n' :: r8))))))
        have h1 : r1 = t ++ r2 := takeWhile_split nonWhite r1
        have h2 : r2 = nlRep n1 ++ r3 := nl_run_decomp r2
        have h3 : r3 = joinNl lns ++ dd.2 := hlnsC
        have h4 : dd.2 = nlRep n2 ++ r5 := nl_run_decomp dd.2
        have h5 : r5 = btick :: btick :: btick :: r6 := by
          have htk : r5.take 3 = [btick, btick, btick] := by
            unfold fenceHead at hfence
            exact beq_iff_eq.mp hfence
          conv_lhs => rw [← List.take_append_drop 3 r5]
          rw [htk, ← hr6]
          rfl
        have h6 : r6 = lang ++ '\n' :: r8 := by
          have := takeWhile_split nonWhite r6
          rw [hr7] at this
          exact this
        rw [h1, h2, h3, h4, h5, h6, hteq]
      · show dd.1 = joinNl lns
        exact hlnsA
      · show (r8.take i : Str) = r8.take i
        rfl
      · exact Nat.one_le_iff_ne_zero.mpr hn1
      · exact Nat.one_le_iff_ne_zero.mpr hn2
      · show a ≠ []
        exact hane
      · show b ≠ []
        exact hbne
      · show cs ≠ []
        exact hcne
      · show ∀ x ∈ a ++ '/' :: (b ++ '/' :: cs), nonWhite x = true
        intro x hxmem
        rw [← hteq] at hxmem
        exact takeWhile_all hxmem
      · intro x hxmem
        exact takeWhile_all hxmem
      · show 2 + t.length + n1 + dd.1.length + n2 + 3 + lang.length + 1 + i + 3 =
          2 + (a ++ '/' :: (b ++ '/' :: cs)).length + n1 + (joinNl lns).length + n2 + 3 +
            lang.length + 1 + i + 3
        rw [← hteq, hlnsA]

theorem joinNl_ne_nil {lns : List Str} (h : lns ≠ []) : joinNl lns ≠ [] := by
  cases lns with
  | nil => exact absurd rfl h
  | cons ln rest =>
    rw [joinNl_cons]
    intro hc
    have : (ln ++ '\n' :: joinNl rest).length = 0 := by rw [hc]; rfl
    simp at this

theorem isNl_btick : isNl btick = false := by decide

theorem nonWhite_nl : nonWhite '\n' = false := by decide

set_option maxHeartbeats 1000000 in
theorem matchAt_intro {l : Str} (h : BlockEx l) : (matchAt l).isSome := by
  obtain ⟨a, b, cs, n1, lns, n2, lang, body, rest, hl, hane, hbne, hcne, htok,
    hn1, hlnsne, hlns, hn2, hlang, hbody⟩ := h
  subst hl
  simp only [matchAt]
  rw [if_pos trivial, if_pos trivial]
  have htake : ((a ++ '/' :: (b ++ '/' :: cs)) ++ (nlRep n1 ++ (joinNl lns ++ (nlRep n2 ++
      (btick :: btick :: btick :: (lang ++ '\n' :: (body ++ btick :: btick :: btick :: rest))))))).takeWhile
      nonWhite = a ++ '/' :: (b ++ '/' :: cs) := by
    apply takeWhile_all_append htok
    intro z hz
    have hz2 : z = '\n' := by
      cases n1 with
      | zero => omega
      | succ m =>
        have : nlRep (m + 1) = '\n' :: nlRep m := rfl
        rw [this] at hz
        exact (Option.some.inj hz).symm
    subst hz2
    exact nonWhite_nl
  rw [htake]
  have hdrop1 : ((a ++ '/' :: (b ++ '/' :: cs)) ++ (nlRep n1 ++ (joinNl lns ++ (nlRep n2 ++
      (btick :: btick :: btick :: (lang ++ '\n' :: (body ++ btick :: btick :: btick :: rest))))))).drop
      (a ++ '/' :: (b ++ '/' :: cs)).length = nlRep n1 ++ (joinNl lns ++ (nlRep n2 ++
      (btick :: btick :: btick :: (lang ++ '\n' :: (body ++ btick :: btick :: btick :: rest))))) :=
    List.drop_left _ _
  rw [hdrop1]
  have hsome := splitHeader_complete hane hbne hcne
  obtain ⟨⟨a2, b2, cs2⟩, hsh⟩ := Option.isSome_iff_exists.mp hsome
  rw [hsh]
  simp only []
  have hheadlns : ∀ z : Char, (joinNl lns ++ (nlRep n2 ++ (btick :: btick :: btick ::
      (lang ++ '\n' :: (body ++ btick :: btick :: btick :: rest))))).head? = some z → isNl z = false := by
    intro z hz
    cases lns with
    | nil => exact absurd rfl hlnsne
    | cons ln lns2 =>
      rw [joinNl_cons] at hz
      obtain ⟨hlnne, hlnnl⟩ := hlns ln (List.mem_cons_self _ _)
      cases ln with
      | nil => exact absurd rfl hlnne
      | cons w ws =>
        have : z = w := by
          simp only [List.cons_append, List.head?_cons] at hz
          exact (Option.some.inj hz).symm
        subst this
        exact hlnnl z (by simp)
  have hnl1 : (nlRep n1 ++ (joinNl lns ++ (nlRep n2 ++ (btick :: btick :: btick ::
      (lang ++ '\n' :: (body ++ btick :: btick :: btick :: rest)))))).takeWhile isNl = nlRep n1 :=
    nl_run_complete hheadlns
  rw [hnl1, nlRep_length]
  rw [if_neg (by omega : ¬ n1 = 0)]
  have hdrop2 : (nlRep n1 ++ (joinNl lns ++ (nlRep n2 ++ (btick :: btick :: btick ::
      (lang ++ '\n' :: (body ++ btick :: btick :: btick :: rest)))))).drop n1 =
      joinNl lns ++ (nlRep n2 ++ (btick :: btick :: btick ::
      (lang ++ '\n' :: (body ++ btick :: btick :: btick :: rest)))) := by
    have h0 := List.drop_left (nlRep n1) (joinNl lns ++ (nlRep n2 ++ (btick :: btick :: btick ::
      (lang ++ '\n' :: (body ++ btick :: btick :: btick :: rest)))))
    rwa [nlRep_length] at h0
  rw [hdrop2]
  have htdl : takeDescLines (joinNl lns ++ (nlRep n2 ++ (btick :: btick :: btick ::
      (lang ++ '\n' :: (body ++ btick :: btick :: btick :: rest))))) =
      (joinNl lns, nlRep n2 ++ (btick :: btick :: btick ::
      (lang ++ '\n' :: (body ++ btick :: btick :: btick :: rest)))) := by
    apply tdl_complete lns _ hlns
    cases n2 with
    | zero => omega
    | succ m => rfl
  rw [htdl]
  rw [if_neg (by simpa using joinNl_ne_nil hlnsne)]
  have hnl2 : (nlRep n2 ++ (btick :: btick :: btick ::
      (lang ++ '\n' :: (body ++ btick :: btick :: btick :: rest)))).takeWhile isNl = nlRep n2 := by
    apply nl_run_complete
    intro z hz
    have : z = btick := (Option.some.inj hz).symm
    subst this
    exact isNl_btick
  rw [hnl2, nlRep_length]
  rw [if_neg (by omega : ¬ n2 = 0)]
  have hdrop3 : (nlRep n2 ++ (btick :: btick :: btick ::
      (lang ++ '\n' :: (body ++ btick :: btick :: btick :: rest)))).drop n2 =
      btick :: btick :: btick :: (lang ++ '\n' :: (body ++ btick :: btick :: btick :: rest)) := by
    have h0 := List.drop_left (nlRep n2) (btick :: btick :: btick ::
      (lang ++ '\n' :: (body ++ btick :: btick :: btick :: rest)))
    rwa [nlRep_length] at h0
  rw [hdrop3]
  rw [if_pos (by rfl : fenceHead (btick :: btick :: btick ::
    (lang ++ '\n' :: (body ++ btick :: btick :: btick :: rest))) = true)]
  have hdrop4 : (btick :: btick :: btick ::
      (lang ++ '\n' :: (body ++ btick :: btick :: btick :: rest))).drop 3 =
      lang ++ '\n' :: (body ++ btick :: btick :: btick :: rest) := rfl
  rw [hdrop4]
  have hlangtake : (lang ++ '\n' :: (body ++ btick :: btick :: btick :: rest)).takeWhile nonWhite =
      lang := by
    apply takeWhile_all_append hlang
    intro z hz
    have : z = '\n' := (Option.some.inj hz).symm
    subst this
    exact nonWhite_nl
  rw [hlangtake]
  have hdrop5 : (lang ++ '\n' :: (body ++ btick :: btick :: btick :: rest)).drop lang.length =
      '\n' :: (body ++ btick :: btick :: btick :: rest) := List.drop_left _ _
  rw [hdrop5]
  simp only []
  rw [if_pos trivial]
  have hbfence : fenceHead ((body ++ btick :: btick :: btick :: rest).drop body.length) = true := by
    rw [List.drop_left]
    rfl
  have hbl : 1 ≤ body.length := by
    cases body with
    | nil => exact absurd rfl hbody
    | cons w ws => simp
  have := fff_exists hbl hbfence
  obtain ⟨i, hfi⟩ := Option.isSome_iff_exists.mp this
  rw [hfi]
  rfl

/-! ### Search and iteration -/

theorem matchAt_nil : matchAt [] = none := rfl

theorem findOff_sound : ∀ {l : Str} {i : Nat} {c : Caps}, findOff l = some (i, c) →
    matchAt (l.drop i) = some c ∧ ∀ j < i, matchAt (l.drop j) = none := by
  intro l
  induction l with
  | nil => intro i c h; cases h
  | cons x rest ih =>
    intro i c h
    simp only [findOff] at h
    cases hm : matchAt (x :: rest) with
    | some cp =>
      rw [hm] at h
      injection h with h
      injection h with h1 h2
      subst h1
      subst h2
      exact ⟨hm, by omega⟩
    | none =>
      rw [hm] at h
      cases hfo : findOff rest with
      | none => rw [hfo] at h; cases h
      | some p =>
        rw [hfo] at h
        simp only [Option.map_some', Option.some.injEq] at h
        rw [Prod.mk.injEq] at h
        obtain ⟨h1, h2⟩ := h
        subst h1
        subst h2
        obtain ⟨hA, hB⟩ := ih (i := p.1) (c := p.2) hfo
        refine ⟨hA, ?_⟩
        intro j hj
        cases j with
        | zero => exact hm
        | succ j2 =>
          rw [List.drop_succ_cons]
          exact hB j2 (by omega)

theorem findOff_none : ∀ {l : Str}, findOff l = none → ∀ j, matchAt (l.drop j) = none := by
  intro l
  induction l with
  | nil =>
    intro _ j
    rw [List.drop_nil]
    exact matchAt_nil
  | cons x rest ih =>
    intro h j
    simp only [findOff] at h
    cases hm : matchAt (x :: rest) with
    | some cp => rw [hm] at h; cases h
    | none =>
      rw [hm] at h
      cases hfo : findOff rest with
      | none =>
        cases j with
        | zero => exact hm
        | succ j2 =>
          rw [List.drop_succ_cons]
          exact ih hfo j2
      | some p => rw [hfo] at h; cases h

theorem findOff_isSome {l : Str} {j : Nat} (h : (matchAt (l.drop j)).isSome) :
    (findOff l).isSome := by
  cases hfo : findOff l with
  | some p => rfl
  | none =>
    rw [findOff_none hfo j] at h
    cases h

theorem matchAt_len_pos {l : Str} {c : Caps} (h : matchAt l = some c) : 0 < c.matchLen := by
  obtain ⟨n1, lns, n2, lang, i, r8, _, _, _, _, _, _, _, _, _, _, _, _, _, hlen⟩ := matchAt_elim h
  omega

theorem findIterInfo_base_le : ∀ (fuel : Nat) (l : Str) (base : Nat),
    ∀ m ∈ findIterInfo fuel l base, base ≤ m.1 := by
  intro fuel
  induction fuel with
  | zero => intro l base m hm; cases hm
  | succ f ih =>
    intro l base m hm
    simp only [findIterInfo] at hm
    cases hfo : findOff l with
    | none => rw [hfo] at hm; cases hm
    | some p =>
      rw [hfo] at hm
      rcases List.mem_cons.mp hm with rfl | hm2
      · simp
      · have := ih _ _ m hm2
        omega

theorem findIterInfo_sound : ∀ (fuel : Nat) (doc l : Str) (base : Nat), l = doc.drop base →
    ∀ m ∈ findIterInfo fuel l base, matchAt (doc.drop m.1) = some m.2 := by
  intro fuel
  induction fuel with
  | zero => intro doc l base _ m hm; cases hm
  | succ f ih =>
    intro doc l base hl m hm
    simp only [findIterInfo] at hm
    cases hfo : findOff l with
    | none => rw [hfo] at hm; cases hm
    | some p =>
      rw [hfo] at hm
      obtain ⟨hA, _⟩ := findOff_sound (l := l) (i := p.1) (c := p.2) hfo
      rcases List.mem_cons.mp hm with rfl | hm2
      · show matchAt (doc.drop (base + p.1)) = some p.2
        have : doc.drop (base + p.1) = l.drop p.1 := by
          rw [hl, List.drop_drop, Nat.add_comm]
        rw [this]
        exact hA
      · refine ih doc _ (base + p.1 + p.2.matchLen) ?_ m hm2
        rw [hl, List.drop_drop]
        congr 1
        omega

theorem findIterInfo_pairwise : ∀ (fuel : Nat) (l : Str) (base : Nat),
    ((findIterInfo fuel l base).map Prod.fst).Pairwise (· < ·) := by
  intro fuel
  induction fuel with
  | zero => intro l base; simp [findIterInfo]
  | succ f ih =>
    intro l base
    simp only [findIterInfo]
    cases hfo : findOff l with
    | none => simp
    | some p =>
      simp only [List.map_cons]
      refine List.pairwise_cons.mpr ⟨?_, ih _ _⟩
      intro q hq
      simp only [List.mem_map] at hq
      obtain ⟨m, hm, rfl⟩ := hq
      have hbase := findIterInfo_base_le _ _ _ m hm
      obtain ⟨hA, _⟩ := findOff_sound (l := l) (i := p.1) (c := p.2) hfo
      have := matchAt_len_pos hA
      omega

/-! ### Trimming and splitting -/

theorem splitNl_ne_nil : ∀ l : Str, splitNl l ≠ [] := by
  intro l
  induction l with
  | nil => simp [splitNl]
  | cons c rest ih =>
    simp only [splitNl]
    by_cases hc : isNl c
    · simp [hc]
    · rw [if_neg hc]
      cases hs : splitNl rest with
      | nil => simp
      | cons s ss => simp

theorem trimEnd_suffix (l : Str) : l = trimEnd l ++ (l.reverse.takeWhile isWhite).reverse ∧
    ∀ x ∈ (l.reverse.takeWhile isWhite).reverse, isWhite x = true := by
  constructor
  · unfold trimEnd
    have h1 : l.reverse.takeWhile isWhite ++ l.reverse.dropWhile isWhite = l.reverse :=
      List.takeWhile_append_dropWhile isWhite l.reverse
    have h2 : l = ((l.reverse.takeWhile isWhite ++ l.reverse.dropWhile isWhite)).reverse := by
      rw [h1, List.reverse_reverse]
    rw [List.reverse_append] at h2
    exact h2
  · intro x hx
    rw [List.mem_reverse] at hx
    exact takeWhile_all hx

theorem trimEnd_all_white {l : Str} (h : ∀ x ∈ l, isWhite x = true) : trimEnd l = [] := by
  unfold trimEnd
  have : l.reverse.dropWhile isWhite = [] := by
    rw [List.dropWhile_eq_nil_iff]
    intro x hx
    exact h x (List.mem_reverse.mp hx)
  rw [this]
  rfl

theorem trimEnd_nil_white {l : Str} (h : trimEnd l = []) : ∀ x ∈ l, isWhite x = true := by
  unfold trimEnd at h
  have h2 : l.reverse.dropWhile isWhite = [] := by
    have := congrArg List.reverse h
    rwa [List.reverse_reverse] at this
  rw [List.dropWhile_eq_nil_iff] at h2
  intro x hx
  exact h2 x (List.mem_reverse.mpr hx)

theorem isWhite_nl : isWhite '\n' = true := by decide

theorem trimEnd_getLast_not_white {l : Str} {y : Char}
    (h : (trimEnd l).getLast? = some y) : isWhite y = false := by
  unfold trimEnd at h
  cases hd : l.reverse.dropWhile isWhite with
  | nil => rw [hd] at h; cases h
  | cons w ws =>
    rw [hd] at h
    have hw : isWhite w = false := by
      have h0 := List.head?_dropWhile_not isWhite l.reverse
      rw [hd] at h0
      exact h0
    have hlast : ((w :: ws : Str).reverse).getLast? = some w := by
      rw [List.getLast?_reverse]
      rfl
    rw [hlast] at h
    have : w = y := Option.some.inj h
    subst this
    exact hw

theorem trimEnd_getLast_not_nl {l : Str} (h : (trimEnd l).getLast? = some '\n') : False := by
  unfold trimEnd at h
  cases hd : l.reverse.dropWhile isWhite with
  | nil => rw [hd] at h; cases h
  | cons w ws =>
    rw [hd] at h
    have hw : isWhite w = false := by
      have h0 := List.head?_dropWhile_not isWhite l.reverse
      rw [hd] at h0
      exact h0
    have hlast : ((w :: ws : Str).reverse).getLast? = some w := by
      rw [List.getLast?_reverse]
      rfl
    rw [hlast] at h
    have : w = '\n' := Option.some.inj h
    subst this
    rw [isWhite_nl] at hw
    cases hw

theorem splitNl_getLast_empty : ∀ {l : Str}, (splitNl l).getLast? = some [] →
    l = [] ∨ l.getLast? = some '\n' := by
  intro l
  induction l with
  | nil => intro _; exact Or.inl rfl
  | cons c rest ih =>
    intro h
    simp only [splitNl] at h
    by_cases hc : isNl c
    · rw [if_pos hc] at h
      have hcnl : c = '\n' := by
        unfold isNl at hc
        exact beq_iff_eq.mp hc
      cases hs : splitNl rest with
      | nil => exact absurd hs (splitNl_ne_nil rest)
      | cons s ss =>
        rw [hs] at h
        rw [List.getLast?_cons_cons] at h
        rw [← hs] at h
        rcases ih h with hrest | hrest
        · subst hrest
          subst hcnl
          exact Or.inr rfl
        · cases rest with
          | nil => cases hrest
          | cons r0 rs =>
            right
            rw [List.getLast?_cons_cons]
            exact hrest
    · rw [if_neg hc] at h
      cases hs : splitNl rest with
      | nil => exact absurd hs (splitNl_ne_nil rest)
      | cons s ss =>
        rw [hs] at h
        cases ss with
        | nil =>
          have : (c :: s : Str) = [] := by
            have h2 : ((c :: s : Str) :: ([] : List Str)).getLast? = some (c :: s) := rfl
            rw [h2] at h
            exact Option.some.inj h
          cases this
        | cons s2 ss2 =>
          rw [List.getLast?_cons_cons] at h
          have h3 : (splitNl rest).getLast? = some [] := by
            rw [hs, List.getLast?_cons_cons]
            exact h
          rcases ih h3 with hrest | hrest
          · subst hrest
            simp [splitNl] at hs
          · cases rest with
            | nil => cases hrest
            | cons r0 rs =>
              right
              rw [List.getLast?_cons_cons]
              exact hrest

/-! ### Claim results -/

/-- Claim C1: for the spec's round-trip document (header `# hello/hello/rust`,
blank line, description line, blank line, rust-tagged fenced block with one
println line), the Segmenter yields exactly one raw block and the Record
Builder turns it into the Snippet with identifier `hello`, prefix `hello`,
scope `rust`, description `[Rust's HelloWorld code]` and body
`[println!("Hello World!");]`. -/
theorem c1_roundtrip_single_block :
    get_snippet_segments docC1 = [blkC1] ∧
    Snippet.from_markdown blkC1 = some snipC1 := by
  constructor
  · decide
  · decide

set_option maxRecDepth 4000 in
/-- Claim C2: the Segmenter returns exactly the Block Grammar matches in
left-to-right order: a document with no match anywhere yields `[]` (not an
error); every reported match is a real match of the grammar at its reported
position; the positions are strictly increasing; and the three-block document
(identifiers `a`, `e`, `abc`) yields exactly its three raw blocks in order. -/
theorem c2_segmenter_ordered :
    (∀ l : Str, (∀ i, i ≤ l.length → matchAt (l.drop i) = none) →
      get_snippet_segments l = []) ∧
    (∀ l : Str, ∀ m ∈ findIterInfo (l.length + 1) l 0, matchAt (l.drop m.1) = some m.2) ∧
    (∀ l : Str, ((findIterInfo (l.length + 1) l 0).map Prod.fst).Pairwise (· < ·)) ∧
    get_snippet_segments docC2 = [blkA, blkB, blkC] ∧
    (get_snippet_segments docC2).map
      (fun s => (Snippet.from_markdown s).map Snippet.identifier) =
      [some ("a".data), some ("e".data), some ("abc".data)] := by
  refine ⟨?_, ?_, ?_, by decide, by decide⟩
  · intro l h
    unfold get_snippet_segments
    simp only [findIterInfo]
    cases hfo : findOff l with
    | none => rfl
    | some p =>
      exfalso
      obtain ⟨hA, _⟩ := findOff_sound (l := l) (i := p.1) (c := p.2) hfo
      by_cases hp : p.1 ≤ l.length
      · rw [h p.1 hp] at hA
        cases hA
      · rw [List.drop_of_length_le (by omega), matchAt_nil] at hA
        cases hA
  · intro l m hm
    exact findIterInfo_sound (l.length + 1) l l 0 (List.drop_zero l).symm m hm
  · intro l
    exact findIterInfo_pairwise (l.length + 1) l 0

/-- Witness for C2: the no-match hypothesis holds for a concrete document
with no header, and the Segmenter indeed returns the empty sequence. -/
theorem c2_segmenter_ordered_witness : get_snippet_segments docNoMatch = [] :=
  c2_segmenter_ordered.1 docNoMatch (by decide)

/-- Claim C8 (confirmed): the Record Builder fails (the `unwrap` of the
captures panics, modelled as `none`) exactly when its input contains no
match of the Block Grammar anywhere; it never fabricates a record from
partial data. -/
theorem c8_malformed_block_iff_no_match : ∀ text : Str,
    Snippet.from_markdown text = none ↔
      ∀ i, i ≤ text.length → matchAt (text.drop i) = none := by
  intro text
  unfold Snippet.from_markdown
  constructor
  · intro h i _
    have hfo : findOff text = none := Option.map_eq_none'.mp h
    exact findOff_none hfo i
  · intro h
    cases hfo : findOff text with
    | none => rfl
    | some p =>
      exfalso
      obtain ⟨hA, _⟩ := findOff_sound (l := text) (i := p.1) (c := p.2) hfo
      by_cases hp : p.1 ≤ text.length
      · rw [h p.1 hp] at hA
        cases hA
      · rw [List.drop_of_length_le (by omega), matchAt_nil] at hA
        cases hA

/-- Three backticks at the head only depend on the first three characters. -/
theorem fenceHead_append_of_le {u v : Str} (h : 3 ≤ u.length) :
    fenceHead (u ++ v) = fenceHead u := by
  unfold fenceHead
  rw [List.take_append_of_le_length h]

/-- Counterexample for claim C3 as stated: in the document whose code region
is `zz`, then a four-backtick line, then `more`, then a three-backtick line,
the claim's closing fence (the first *line* of exactly three backticks) would
end the body only after `more`, but the match's body capture is just `zz`
with its line break — the body ends at the first three-backtick *sequence*,
which here sits inside the four-backtick line. -/
theorem c3_counterexample :
    (matchAt docC3x).map Caps.bodyCap = some ("zz\n".data) ∧
    some ("zz\n".data) ≠ some ("zz\n````\nmore\n".data) := by
  refine ⟨by decide, by decide⟩

/-- Claim C3 as amended: for every document and every matched block, the body
capture is nonempty and ends at the nearest occurrence of three consecutive
backticks after at least one body character — three backticks follow the body
immediately, and no three-backtick sequence begins strictly inside the body
after its first character (so content after that nearest occurrence,
including any later block, is never part of the body). -/
theorem c3_body_ends_at_nearest_fence : ∀ (l : Str) (c : Caps), matchAt l = some c →
    c.bodyCap ≠ [] ∧
    fenceHead ((c.bodyCap ++ [btick, btick, btick]).drop c.bodyCap.length) = true ∧
    ∀ j, 1 ≤ j → j < c.bodyCap.length →
      fenceHead ((c.bodyCap ++ [btick, btick, btick]).drop j) = false := by
  intro l c h
  obtain ⟨n1, lns, n2, lang, i, r8, _, _, hbody, hff, _, _, _, _, _, _, _, _, _, _⟩ :=
    matchAt_elim h
  obtain ⟨hi1, hfi, hmin⟩ := fff_sound hff
  have hilen : i < r8.length := by
    by_contra hc
    rw [List.drop_of_length_le (by omega), fenceHead_nil] at hfi
    cases hfi
  have hblen : c.bodyCap.length = i := by
    rw [hbody, List.length_take]
    omega
  have hbne : c.bodyCap ≠ [] := by
    intro hc
    rw [hc] at hblen
    simp only [List.length_nil] at hblen
    omega
  have hfence3 : (r8.drop i).take 3 = [btick, btick, btick] := by
    unfold fenceHead at hfi
    exact beq_iff_eq.mp hfi
  have hr8 : r8 = c.bodyCap ++ ([btick, btick, btick] ++ r8.drop (i + 3)) := by
    have h1 : r8 = r8.take i ++ r8.drop i := (List.take_append_drop i r8).symm
    have h2 : r8.drop i = (r8.drop i).take 3 ++ (r8.drop i).drop 3 :=
      (List.take_append_drop 3 (r8.drop i)).symm
    have h4 : (r8.drop i).drop 3 = r8.drop (i + 3) := by
      rw [List.drop_drop]
      try congr 1
      try omega
    conv_lhs => rw [h1, h2, hfence3, h4]
    rw [hbody]
  refine ⟨hbne, ?_, ?_⟩
  · rw [hblen, hbody]
    have hlen : (r8.take i : Str).length = i := by rw [List.length_take]; omega
    have : ((r8.take i : Str) ++ [btick, btick, btick]).drop i = [btick, btick, btick] := by
      have hdl := List.drop_left (r8.take i : Str) [btick, btick, btick]
      rwa [hlen] at hdl
    rw [this]
    decide
  · intro j hj1 hji
    rw [hblen] at hji
    have hjle : j ≤ c.bodyCap.length := by omega
    have e1 : (c.bodyCap ++ [btick, btick, btick]).drop j =
        c.bodyCap.drop j ++ [btick, btick, btick] := List.drop_append_of_le_length hjle
    have e2 : r8.drop j = c.bodyCap.drop j ++ ([btick, btick, btick] ++ r8.drop (i + 3)) := by
      conv_lhs => rw [hr8]
      exact List.drop_append_of_le_length hjle
    have e3 : fenceHead (c.bodyCap.drop j ++ ([btick, btick, btick] ++ r8.drop (i + 3))) =
        fenceHead (c.bodyCap.drop j ++ [btick, btick, btick]) := by
      rw [← List.append_assoc]
      apply fenceHead_append_of_le
      rw [List.length_append]
      simp
    rw [e1, ← e3, ← e2]
    exact hmin j hj1 (by omega)

/-- Witness for C3 (amended): instantiated on the first concrete block, whose
body has length 19; position 2 lies strictly inside the body and indeed does
not start a fence. -/
theorem c3_body_ends_at_nearest_fence_witness :
    fenceHead ((capsA.bodyCap ++ [btick, btick, btick]).drop 2) = false :=
  (c3_body_ends_at_nearest_fence blkA capsA (by decide)).2.2 2 (by decide) (by decide)

/-- Counterexample for claim C6 as stated: in `docC6x` the first character is
`x` and the header `#` sits at offset 1 — not at the start of a line — yet
the leftmost match begins exactly there. -/
theorem c6_counterexample :
    (findOff docC6x).map Prod.fst = some 1 ∧ docC6x.take 1 = ['x'] := by
  refine ⟨by decide, by decide⟩

/-- Claim C6 as amended: a piece of text begins a matched block if and only
if it starts (anywhere, not necessarily at the start of a line) with `#`,
exactly one space, then three nonempty `/`-separated whitespace-free tokens
with nothing else on that line (the identifier and prefix tokens may
themselves contain `/`), followed by the rest of the block shape
(line breaks, description lines, a blank line, a fenced body closed by three
backticks); header-like texts deviating from this shape never begin a
match. -/
theorem c6_match_iff_header_shape : ∀ l : Str, (matchAt l).isSome ↔ BlockEx l := by
  intro l
  constructor
  · intro h
    obtain ⟨c, hc⟩ := Option.isSome_iff_exists.mp h
    obtain ⟨n1, lns, n2, lang, i, r8, hl, hdesc, hbody, hff, hn1, hn2, hlnsne, hlns,
      hidne, hbne, hcne, htok, hlang, hlen⟩ := matchAt_elim hc
    obtain ⟨hi1, hfi, hmin⟩ := fff_sound hff
    have hilen : i < r8.length := by
      by_contra hcon
      rw [List.drop_of_length_le (by omega), fenceHead_nil] at hfi
      cases hfi
    have hfence3 : (r8.drop i).take 3 = [btick, btick, btick] := by
      unfold fenceHead at hfi
      exact beq_iff_eq.mp hfi
    have hr8 : r8 = r8.take i ++ ([btick, btick, btick] ++ r8.drop (i + 3)) := by
      have h1 : r8 = r8.take i ++ r8.drop i := (List.take_append_drop i r8).symm
      have h2 : r8.drop i = (r8.drop i).take 3 ++ (r8.drop i).drop 3 :=
        (List.take_append_drop 3 (r8.drop i)).symm
      have h4 : (r8.drop i).drop 3 = r8.drop (i + 3) := by
        rw [List.drop_drop]
        try congr 1
        try omega
      conv_lhs => rw [h1, h2, hfence3, h4]
    have hbodyne : (r8.take i : Str) ≠ [] := by
      intro hcon
      have : (r8.take i : Str).length = 0 := by rw [hcon]; rfl
      rw [List.length_take] at this
      omega
    refine ⟨c.idTok, c.prefixTok, c.scopeTok, n1, lns, n2, lang, r8.take i,
      r8.drop (i + 3), ?_, hidne, hbne, hcne, htok, hn1, hlnsne, hlns, hn2, hlang, hbodyne⟩
    rw [hl]
    conv_lhs => rw [hr8]
    rfl
  · exact matchAt_intro

/-- Counterexample for claim C7 as stated: `docC7x` has no blank line between
its header line and its description line (character 8, right after the
header's own line break at character 7, already starts the description), yet
a match begins at offset 0. -/
theorem c7_counterexample :
    (findOff docC7x).map Prod.fst = some 0 ∧ docC7x.take 9 = "# a/b/c\nd".data := by
  refine ⟨by decide, by decide⟩

/-- Claim C7 as amended: in every matched block, one or more line breaks
separate the header from the description (the header's own line terminator
suffices — a blank line is not required there), and one or more blank lines
separate the last description line from the opening fence (each description
line carries its own terminator, and at least one further line break must
follow before the three backticks); a candidate block lacking the
description–fence blank line is not matched. -/
theorem c7_blank_line_separation : ∀ (l : Str) (c : Caps), matchAt l = some c →
    SepShape l := by
  intro l c h
  obtain ⟨n1, lns, n2, lang, i, r8, hl, _, _, _, hn1, hn2, hlnsne, hlns, _, _, _, _, _, _⟩ :=
    matchAt_elim h
  exact ⟨c.idTok ++ '/' :: (c.prefixTok ++ '/' :: c.scopeTok), n1, lns, n2,
    lang ++ '\n' :: r8, hl, hn1, hn2, hlnsne, hlns⟩

/-- Witness for C7 (amended): the separation shape is realized on the first
concrete block. -/
theorem c7_blank_line_separation_witness : SepShape blkA :=
  c7_blank_line_separation blkA capsA (by decide)

/-- Witness for C6 (amended): the declarative block shape holds for the first
concrete block, obtained through the equivalence. -/
theorem c6_match_iff_header_shape_witness : BlockEx blkA :=
  (c6_match_iff_header_shape blkA).mp (by decide)

/-- Witness for C8: on the concrete no-match document the Builder fails. -/
theorem c8_malformed_block_iff_no_match_witness :
    Snippet.from_markdown docNoMatch = none :=
  (c8_malformed_block_iff_no_match docNoMatch).mpr (by decide)

/-- Claim C5: every Snippet the Record Builder produces from a
Segmenter-produced raw block satisfies the well-formedness invariant:
identifier, prefix and scope are nonempty and whitespace-free, the three of
them tile a single whitespace-delimited header token (the run between the
`# ` and the line break), and the description and body sequences are
nonempty. -/
theorem c5_snippet_invariants : ∀ (text seg : Str) (s : Snippet),
    seg ∈ get_snippet_segments text → Snippet.from_markdown seg = some s →
    1 ≤ s.identifier.length ∧ 1 ≤ s.body.prefixTok.length ∧ 1 ≤ s.body.scopeTok.length ∧
    (∀ x ∈ s.identifier, nonWhite x = true) ∧
    (∀ x ∈ s.body.prefixTok, nonWhite x = true) ∧
    (∀ x ∈ s.body.scopeTok, nonWhite x = true) ∧
    (∃ j tail, seg.drop j = '#' :: ' ' ::
      ((s.identifier ++ '/' :: (s.body.prefixTok ++ '/' :: s.body.scopeTok)) ++ '\n' :: tail)) ∧
    1 ≤ s.body.description.length ∧ 1 ≤ s.body.body.length := by
  intro text seg s _ h2
  unfold Snippet.from_markdown at h2
  cases hfo : findOff seg with
  | none => rw [hfo] at h2; cases h2
  | some p =>
    rw [hfo] at h2
    simp only [Option.map_some', Option.some.injEq] at h2
    subst h2
    obtain ⟨hA, _⟩ := findOff_sound (l := seg) (i := p.1) (c := p.2) hfo
    obtain ⟨n1, lns, n2, lang, i, r8, hl, _, _, _, hn1, _, _, _,
      hidne, hbne, hcne, htok, _, _⟩ := matchAt_elim hA
    refine ⟨?_, ?_, ?_, ?_, ?_, ?_, ?_, ?_, ?_⟩
    · exact Nat.one_le_iff_ne_zero.mpr (fun hc => hidne (List.length_eq_zero.mp hc))
    · exact Nat.one_le_iff_ne_zero.mpr (fun hc => hbne (List.length_eq_zero.mp hc))
    · exact Nat.one_le_iff_ne_zero.mpr (fun hc => hcne (List.length_eq_zero.mp hc))
    · intro x hx
      apply htok
      simp only [List.mem_append, List.mem_cons]
      exact Or.inl hx
    · intro x hx
      apply htok
      simp only [List.mem_append, List.mem_cons]
      exact Or.inr (Or.inr (Or.inl hx))
    · intro x hx
      apply htok
      simp only [List.mem_append, List.mem_cons]
      exact Or.inr (Or.inr (Or.inr (Or.inr hx)))
    · cases n1 with
      | zero => omega
      | succ m =>
        refine ⟨p.1, nlRep m ++ (joinNl lns ++ (nlRep n2 ++ (btick :: btick :: btick ::
          (lang ++ '\n' :: r8)))), ?_⟩
        rw [hl]
        rfl
    · have := splitNl_ne_nil (trimEnd p.2.descCap)
      show 1 ≤ (splitNl (trimEnd p.2.descCap)).length
      exact Nat.one_le_iff_ne_zero.mpr (fun hc => this (List.length_eq_zero.mp hc))
    · have := splitNl_ne_nil (trimEnd p.2.bodyCap)
      show 1 ≤ (splitNl (trimEnd p.2.bodyCap)).length
      exact Nat.one_le_iff_ne_zero.mpr (fun hc => this (List.length_eq_zero.mp hc))

/-- Witness for C5: instantiated on the round-trip document and its produced
Snippet. -/
theorem c5_snippet_invariants_witness : 1 ≤ snipC1.identifier.length :=
  (c5_snippet_invariants docC1 blkC1 snipC1 (by decide) (by decide)).1

/-- Claim C10: whenever the input text contains a Block Grammar match
anywhere — with arbitrary non-matching text around it — `from_markdown`
succeeds, and the record it returns is built from the captures of the
leftmost match (every position left of the found one has no match, and the
found position is at or left of the given one). -/
theorem c10_builder_accepts_embedded_block : ∀ (text : Str) (i : Nat) (c : Caps),
    matchAt (text.drop i) = some c →
    (Snippet.from_markdown text).isSome ∧
    ∀ j cj, findOff text = some (j, cj) →
      j ≤ i ∧ (∀ k, k < j → matchAt (text.drop k) = none) ∧
      Snippet.from_markdown text = some
        (Snippet.from_text cj.idTok cj.prefixTok cj.scopeTok cj.bodyCap cj.descCap) := by
  intro text i c h
  have hfs : (findOff text).isSome := findOff_isSome (j := i) (by rw [h]; rfl)
  constructor
  · unfold Snippet.from_markdown
    cases hfo : findOff text with
    | none => rw [hfo] at hfs; cases hfs
    | some p => rfl
  · intro j cj hfo
    obtain ⟨hA, hB⟩ := findOff_sound hfo
    refine ⟨?_, hB, ?_⟩
    · by_contra hcon
      rw [hB i (by omega)] at h
      cases h
    · unfold Snippet.from_markdown
      rw [hfo]
      rfl

/-- Witness for C10: the concrete document with junk before and after its
block; the match at offset 5 makes the Builder succeed. -/
theorem c10_builder_accepts_embedded_block_witness :
    (Snippet.from_markdown docC10).isSome :=
  (c10_builder_accepts_embedded_block docC10 5 capsC10 (by decide)).1

/-- The trimming-then-splitting step of the Record Builder satisfies
`TrimSpec` on any capture. -/
theorem trim_split_spec (c : Str) : TrimSpec c (splitNl (trimEnd c)) := by
  refine ⟨splitNl_ne_nil _, ?_, ?_, ?_⟩
  · intro h
    rw [trimEnd_all_white h]
    rfl
  · intro hlast
    rcases splitNl_getLast_empty hlast with h0 | h0
    · exact trimEnd_nil_white h0
    · exact absurd h0 (fun hh => trimEnd_getLast_not_nl hh)
  · obtain ⟨h1, h2⟩ := trimEnd_suffix c
    refine ⟨trimEnd c, _, h1, h2, ?_, rfl⟩
    cases htr : (trimEnd c).getLast? with
    | none => exact Or.inl rfl
    | some y => exact Or.inr ⟨y, rfl, trimEnd_getLast_not_white htr⟩

/-- Counterexample for claim C4 as stated: a description region whose single
line is `ab ` (with a trailing space).  The claim requires the trailing
whitespace inside the final non-blank line to be preserved verbatim, but the
Builder produces the entry `ab` — `trim_end` removes trailing whitespace
characters, not only trailing blank lines. -/
theorem c4_counterexample :
    (Snippet.from_markdown docC4x).map (fun s => s.body.description) = some ["ab".data] ∧
    some [("ab".data : Str)] ≠ some [("ab ".data : Str)] := by
  refine ⟨by decide, by decide⟩

/-- Claim C4 as amended: the Record Builder's trimming removes exactly the
maximal whitespace suffix of each captured region — the retained region ends
in a non-whitespace character or is empty, so trailing blank lines *and*
trailing whitespace inside the final non-blank line are removed, and no
earlier content is touched — and the field is the newline-split of the
retained region; the result is never empty; a region of only whitespace
yields exactly one empty-string entry, and that is the only way a trailing
empty-string entry arises. -/
theorem c4_trim_behaviour : ∀ idT preT scT bodyC descC : Str,
    TrimSpec descC (Snippet.from_text idT preT scT bodyC descC).body.description ∧
    TrimSpec bodyC (Snippet.from_text idT preT scT bodyC descC).body.body := by
  intro idT preT scT bodyC descC
  exact ⟨trim_split_spec descC, trim_split_spec bodyC⟩

/-- Witness for C4 (amended): an all-whitespace description region yields
exactly one empty entry. -/
theorem c4_trim_behaviour_witness :
    (Snippet.from_text [] [] [] ("x\n".data) (" \n".data)).body.description = [[]] :=
  ((c4_trim_behaviour [] [] [] ("x\n".data) (" \n".data)).1).2.1 (by decide)
